import Mathlib

/-!
Verification development for the morph-agent orchestration core.

The TypeScript sources are embedded shallowly:
* `Json` models the JSON values produced by `JSON.parse` (numbers as exact
  rationals; host float formatting of non-integers is approximated, no claim
  depends on it).
* `parseJson` models `JSON.parse` (strict JSON grammar, duplicate object keys
  resolved last-wins as in JS, `Option` instead of a thrown SyntaxError).
* `parseDirectives` models `src/parser.ts`.
* `TaskQueue` models `src/task-queue.ts`.
* `Executor.runTask` models `src/executor.ts` (promise rejection modeled as
  `Except.error`).
* `Agent.chat` models `src/agent.ts`; the LLM is modeled as the sequence of
  its responses (`gen : Nat → String`, one entry per `generate` call), and the
  mutual recursion between batch processing and Thinking processing is given
  explicit fuel (the JS recursion is unbounded in principle).
Ghost fields (`trace`, `warnings`, `doneQueues`, `mounts`) record the
observable events (taskStart, console.warn, final queue, uiAdapter.mount)
without changing control flow.
-/

/-- JSON values as produced by `JSON.parse` in the host language. -/
inductive Json where
  | null : Json
  | bool (b : Bool) : Json
  | num (q : Rat) : Json
  | str (s : String) : Json
  | arr (elems : List Json) : Json
  | obj (fields : List (String × Json)) : Json
deriving Repr

namespace Json

/-- JS truthiness of a JSON value (`undefined` is handled by callers via
`Option`).  `NaN` cannot arise from `JSON.parse`. -/
def truthy : Json → Bool
  | null => false
  | bool b => b
  | num q => decide (q ≠ 0)
  | str s => !s.isEmpty
  | arr _ => true
  | obj _ => true

/-- Property lookup on an object; `none` models JS `undefined` (absent key or
non-object receiver as used in the sources).  Objects built by `parseJson`
have unique keys (last-wins), so first-match lookup agrees with JS. -/
def getField : Json → String → Option Json
  | obj fields, k => (fields.find? (fun f => f.1 = k)).map (fun f => f.2)
  | _, _ => none

/-- JS truthiness of a possibly-absent property. -/
def truthyField (j : Json) (k : String) : Bool :=
  match j.getField k with
  | some v => v.truthy
  | none => false

/-- JS `String(·)` coercion, used where the sources use a value as an object
key.  Non-integer number formatting is approximated (host floats are out of
scope); no claim exercises it. -/
def jsString : Json → String
  | null => "null"
  | bool true => "true"
  | bool false => "false"
  | num q => if q.den = 1 then toString q.num else toString q.num ++ "/" ++ toString q.den
  | str s => s
  | arr xs => String.intercalate "," (xs.map (fun x => jsStringShallow x))
  | obj _ => "[object Object]"
where
  /-- One level of array element coercion (JS joins with `,`); nested arrays
  are flattened by JS, approximated here one level deep (unused by claims). -/
  jsStringShallow : Json → String
  | null => ""
  | bool true => "true"
  | bool false => "false"
  | num q => if q.den = 1 then toString q.num else toString q.num ++ "/" ++ toString q.den
  | str s => s
  | arr _ => ""
  | obj _ => "[object Object]"

end Json

/-! ## JSON.parse -/

namespace JsonParse

/-- JSON insignificant whitespace. -/
def isWs (c : Char) : Bool :=
  c = ' ' || c = '\t' || c = '\n' || c = '\r'

def skipWs (cs : List Char) : List Char :=
  cs.dropWhile isWs

def digitsToNat (ds : List Char) : Nat :=
  ds.foldl (fun acc c => acc * 10 + (c.toNat - '0'.toNat)) 0

def hexVal (c : Char) : Option Nat :=
  if '0' ≤ c ∧ c ≤ '9' then some (c.toNat - '0'.toNat)
  else if 'a' ≤ c ∧ c ≤ 'f' then some (c.toNat - 'a'.toNat + 10)
  else if 'A' ≤ c ∧ c ≤ 'F' then some (c.toNat - 'A'.toNat + 10)
  else none

/-- Parse body of a JSON string after the opening quote.  Returns the decoded
characters and the rest after the closing quote.  Lone surrogates from
`\uXXXX` are not representable in `Char` and decode to the replacement
behavior of `Char.ofNat` (dead corner for the claims). -/
def pStringRest : Nat → List Char → Option (List Char × List Char)
  | 0, _ => none
  | _, [] => none
  | fuel + 1, c :: rest =>
    if c = '"' then some ([], rest)
    else if c = '\\' then
      match rest with
      | [] => none
      | e :: rest2 =>
        let cont (d : Char) (rs : List Char) : Option (List Char × List Char) :=
          (pStringRest fuel rs).map (fun p => (d :: p.1, p.2))
        if e = '"' then cont '"' rest2
        else if e = '\\' then cont '\\' rest2
        else if e = '/' then cont '/' rest2
        else if e = 'b' then cont (Char.ofNat 8) rest2
        else if e = 'f' then cont (Char.ofNat 12) rest2
        else if e = 'n' then cont '\n' rest2
        else if e = 'r' then cont '\r' rest2
        else if e = 't' then cont '\t' rest2
        else if e = 'u' then
          match rest2 with
          | h1 :: h2 :: h3 :: h4 :: rest3 =>
            match hexVal h1, hexVal h2, hexVal h3, hexVal h4 with
            | some a, some b, some c', some d =>
              cont (Char.ofNat (((a * 16 + b) * 16 + c') * 16 + d)) rest3
            | _, _, _, _ => none
          | _ => none
        else none
    else if c.toNat < 32 then none
    else (pStringRest fuel rest).map (fun p => (c :: p.1, p.2))

/-- Parse a JSON number.  Exact value as a rational. -/
def pNumber (cs : List Char) : Option (Rat × List Char) :=
  let (neg, cs1) :=
    match cs with
    | '-' :: rest => (true, rest)
    | _ => (false, cs)
  let intDigits := cs1.takeWhile Char.isDigit
  let cs2 := cs1.drop intDigits.length
  if intDigits.isEmpty then none
  else if intDigits.length > 1 ∧ intDigits.headD '0' = '0' then none
  else
    let (fracDigits, cs3) :=
      match cs2 with
      | '.' :: rest =>
        let fd := rest.takeWhile Char.isDigit
        (fd, rest.drop fd.length)
      | _ => ([], cs2)
    if (match cs2 with | '.' :: _ => fracDigits.isEmpty | _ => false) then none
    else
      let expPart : Option (Bool × List Char × List Char) :=
        match cs3 with
        | e :: rest =>
          if e = 'e' ∨ e = 'E' then
            let (eneg, rest2) :=
              match rest with
              | '+' :: r => (false, r)
              | '-' :: r => (true, r)
              | _ => (false, rest)
            let ed := rest2.takeWhile Char.isDigit
            if ed.isEmpty then none else some (eneg, ed, rest2.drop ed.length)
          else none
        | [] => none
      let finish (eneg : Bool) (eDigits : List Char) (rest : List Char) :
          Option (Rat × List Char) :=
        let mantissa : Int :=
          Int.ofNat (digitsToNat (intDigits ++ fracDigits))
        let base : Rat := (mantissa : Rat) / ((10 : Rat) ^ fracDigits.length)
        let e := digitsToNat eDigits
        let scaled : Rat :=
          if eneg then base / ((10 : Rat) ^ e) else base * ((10 : Rat) ^ e)
        some ((if neg then -scaled else scaled), rest)
      match cs3, expPart with
      | _ :: _, some (eneg, ed, rest) => finish eneg ed rest
      | _, _ => finish false [] cs3

/-- Duplicate object keys: JS keeps the first key position with the last
value. -/
def dedupFields (fs : List (String × Json)) : List (String × Json) :=
  fs.foldl
    (fun acc f =>
      if acc.any (fun g => g.1 = f.1) then
        acc.map (fun g => if g.1 = f.1 then (g.1, f.2) else g)
      else acc ++ [f])
    []

mutual

/-- Parse one JSON value. -/
def pValue : Nat → List Char → Option (Json × List Char)
  | 0, _ => none
  | fuel + 1, cs =>
    match cs with
    | [] => none
    | c :: rest =>
      if c = '"' then
        (pStringRest (rest.length + 1) rest).map
          (fun p => (Json.str (String.mk p.1), p.2))
      else if c = '{' then
        pObjBody fuel (skipWs rest)
      else if c = '[' then
        pArrBody fuel (skipWs rest)
      else if c = 't' then
        if (String.mk ['t', 'r', 'u', 'e']).data.isPrefixOf cs then
          some (Json.bool true, cs.drop 4)
        else none
      else if c = 'f' then
        if (String.mk ['f', 'a', 'l', 's', 'e']).data.isPrefixOf cs then
          some (Json.bool false, cs.drop 5)
        else none
      else if c = 'n' then
        if (String.mk ['n', 'u', 'l', 'l']).data.isPrefixOf cs then
          some (Json.null, cs.drop 4)
        else none
      else
        (pNumber cs).map (fun p => (Json.num p.1, p.2))

/-- Parse an array body after `[` and leading whitespace. -/
def pArrBody : Nat → List Char → Option (Json × List Char)
  | 0, _ => none
  | fuel + 1, cs =>
    match cs with
    | ']' :: rest => some (Json.arr [], rest)
    | _ =>
      (pValue fuel cs).bind (fun p =>
        pArrRest fuel [p.1] (skipWs p.2))

/-- Parse remaining array elements (after at least one element). -/
def pArrRest : Nat → List Json → List Char → Option (Json × List Char)
  | 0, _, _ => none
  | fuel + 1, acc, cs =>
    match cs with
    | ']' :: rest => some (Json.arr acc.reverse, rest)
    | ',' :: rest =>
      (pValue fuel (skipWs rest)).bind (fun p =>
        pArrRest fuel (p.1 :: acc) (skipWs p.2))
    | _ => none

/-- Parse an object body after `{` and leading whitespace. -/
def pObjBody : Nat → List Char → Option (Json × List Char)
  | 0, _ => none
  | fuel + 1, cs =>
    match cs with
    | '}' :: rest => some (Json.obj [], rest)
    | _ =>
      (pMember fuel cs).bind (fun p =>
        pObjRest fuel [p.1] (skipWs p.2))

/-- Parse remaining object members (after at least one member). -/
def pObjRest : Nat → List (String × Json) → List Char →
    Option (Json × List Char)
  | 0, _, _ => none
  | fuel + 1, acc, cs =>
    match cs with
    | '}' :: rest => some (Json.obj (dedupFields acc.reverse), rest)
    | ',' :: rest =>
      (pMember fuel (skipWs rest)).bind (fun p =>
        pObjRest fuel (p.1 :: acc) (skipWs p.2))
    | _ => none

/-- Parse one `"key" : value` member. -/
def pMember : Nat → List Char → Option ((String × Json) × List Char)
  | 0, _ => none
  | fuel + 1, cs =>
    match cs with
    | '"' :: rest =>
      (pStringRest (rest.length + 1) rest).bind (fun kp =>
        match skipWs kp.2 with
        | ':' :: rest2 =>
          (pValue fuel (skipWs rest2)).map
            (fun vp => ((String.mk kp.1, vp.1), vp.2))
        | _ => none)
    | _ => none

end

end JsonParse

/-- `JSON.parse`: `none` models a thrown SyntaxError. -/
def parseJson (s : String) : Option Json :=
  let cs := JsonParse.skipWs s.data
  match JsonParse.pValue (cs.length + 1) cs with
  | some (j, rest) => if (JsonParse.skipWs rest).isEmpty then some j else none
  | none => none

/-! ## Data model (src/types.ts) -/

namespace Morph

/-- `Task` from `src/types.ts`.  `params` is optional at the JSON level; the
unchecked `as Task` cast in the parser is modeled by the coercions in
`taskOfJson`. -/
structure Task where
  id : String
  kind : String
  params : Option Json
  dependsOn : Option (List String)
deriving Repr

/-- Status of a `TaskResult`. -/
inductive TStatus where
  | ok : TStatus
  | error : TStatus
deriving Repr, DecidableEq

/-- `TaskResult` from `src/types.ts` (the internal `_observed` flag is a
write-only marker in the sources and is omitted). -/
structure TaskResult where
  id : String
  status : TStatus
  output : Option Json
  error : Option String
deriving Repr

/-- `UiDescriptor` from `src/types.ts`. -/
structure UiDescriptor where
  id : String
  type : String
  props : Option Json
  events : Option (List String)
deriving Repr

/-- `ThinkingDirective` from `src/types.ts`. -/
structure ThinkingDirective where
  tasks : List Task
deriving Repr

/-- `HistoryEntry` from `src/types.ts`; the wall-clock `timestamp` field is
not representable in a pure model and is omitted. -/
inductive HistoryEntry where
  | user (content : String) : HistoryEntry
  | assistant (content : String) : HistoryEntry
  | tool (id : String) (status : TStatus) (output : Option Json)
      (error : Option String) : HistoryEntry
deriving Repr

/-! ## Directive parser (src/parser.ts) -/

/-- `ParsedMessage` from `src/parser.ts`. -/
structure ParsedMessage where
  rawText : String
  tasks : List Task
  ui : List UiDescriptor
  thinkingDirective : Option ThinkingDirective
deriving Repr

namespace Parser

/-- JS `String.prototype.trim` on a character list (the exotic Unicode space
classes never occur in the claims). -/
def isTrimWs (c : Char) : Bool :=
  c = ' ' || c = '\t' || c = '\n' || c = '\r' ||
  c = Char.ofNat 11 || c = Char.ofNat 12

def trim (cs : List Char) : List Char :=
  ((cs.dropWhile isTrimWs).reverse.dropWhile isTrimWs).reverse

/-- Try to match ```` ```(Task|Ui|Thinking)\n ```` at the current position,
returning the tag and the rest after the tag line (the directive pattern of
`src/parser.ts`).  The three tags are mutually prefix-free, so the
alternation order of the regex is irrelevant. -/
def tagAt (cs : List Char) : Option (String × List Char) :=
  if ("```Task\n".data).isPrefixOf cs then some ("Task", cs.drop 8)
  else if ("```Ui\n".data).isPrefixOf cs then some ("Ui", cs.drop 6)
  else if ("```Thinking\n".data).isPrefixOf cs then some ("Thinking", cs.drop 12)
  else none

/-- Split at the first occurrence of the closing ```` \n``` ````, returning the
payload before it and the rest after it (the lazy `[\s\S]*?` of the
directive regex). -/
def closeSplit : List Char → Option (List Char × List Char)
  | [] => none
  | c :: rest =>
    if ("\n```".data).isPrefixOf (c :: rest) then some ([], (c :: rest).drop 4)
    else (closeSplit rest).map (fun p => (c :: p.1, p.2))

/-- All matches of the directive pattern, left to right, resuming after each
match (regex `exec` with the `g` flag). -/
def blocksGo : Nat → List Char → List (String × List Char)
  | 0, _ => []
  | _, [] => []
  | fuel + 1, c :: rest =>
    match tagAt (c :: rest) with
    | some (tag, afterTag) =>
      match closeSplit afterTag with
      | some (payload, rest2) => (tag, payload) :: blocksGo fuel rest2
      | none => blocksGo fuel rest
    | none => blocksGo fuel rest

def blocks (cs : List Char) : List (String × List Char) :=
  blocksGo cs.length cs

/-- The `payload as Task` cast of `src/parser.ts`, made typed: string-valued
fields go through the JS string coercion that the queue and executor would
apply when using them as keys.  An absent `id`/`kind` (possible only for
Thinking plan elements, which are not validated) is modeled by the string JS
produces when the `undefined` value is later used as a key.  A truthy
non-array `dependsOn` would make `nextReady` throw in JS; it is modeled as
absent (no claim reaches this corner). -/
def taskOfJson (j : Json) : Task :=
  { id :=
      match j.getField "id" with
      | some v => Json.jsString v
      | none => "undefined"
    kind :=
      match j.getField "kind" with
      | some v => Json.jsString v
      | none => "undefined"
    params := j.getField "params"
    dependsOn :=
      match j.getField "dependsOn" with
      | some (Json.arr xs) => some (xs.map Json.jsString)
      | _ => none }

/-- The `payload as UiDescriptor` cast, typed as in `taskOfJson`. -/
def uiOfJson (j : Json) : UiDescriptor :=
  { id :=
      match j.getField "id" with
      | some v => Json.jsString v
      | none => "undefined"
    type :=
      match j.getField "type" with
      | some v => Json.jsString v
      | none => "undefined"
    props := j.getField "props"
    events :=
      match j.getField "events" with
      | some (Json.arr xs) => some (xs.map Json.jsString)
      | _ => none }

/-- The `if (payload.id && payload.kind)` validation of a `Task` block
(truthiness, not presence); `none` models the warned, dropped block. -/
def taskCheck (payload : Json) : Option Task :=
  if payload.truthyField "id" && payload.truthyField "kind" then
    some (taskOfJson payload)
  else none

/-- The `if (payload.id && payload.type)` validation of a `Ui` block. -/
def uiCheck (payload : Json) : Option UiDescriptor :=
  if payload.truthyField "id" && payload.truthyField "type" then
    some (uiOfJson payload)
  else none

/-- The `if (Array.isArray(payload.tasks))` validation of a `Thinking`
block. -/
def thinkingCheck (payload : Json) : Option ThinkingDirective :=
  match payload.getField "tasks" with
  | some (Json.arr ts) => some ⟨ts.map taskOfJson⟩
  | _ => none

/-- The body of the `while` loop of `parseDirectives` for one match: parse
the trimmed payload (a thrown `JSON.parse` error is caught and contributes
nothing), then dispatch on the directive kind. -/
def accumulate (acc : List Task × List UiDescriptor × Option ThinkingDirective)
    (b : String × List Char) :
    List Task × List UiDescriptor × Option ThinkingDirective :=
  match parseJson (String.mk (trim b.2)) with
  | none => acc
  | some payload =>
    if b.1 = "Task" then
      match taskCheck payload with
      | some t => (acc.1 ++ [t], acc.2.1, acc.2.2)
      | none => acc
    else if b.1 = "Ui" then
      match uiCheck payload with
      | some u => (acc.1, acc.2.1 ++ [u], acc.2.2)
      | none => acc
    else if b.1 = "Thinking" then
      match thinkingCheck payload with
      | some td => (acc.1, acc.2.1, some td)
      | none => acc
    else acc

/-- Net contribution of one matched block to `tasks` (specification view of
`accumulate`, proved equivalent in `parseDirectives_blockwise`). -/
def taskContribution (b : String × List Char) : Option Task :=
  if b.1 = "Task" then (parseJson (String.mk (trim b.2))).bind taskCheck
  else none

/-- Net contribution of one matched block to `ui`. -/
def uiContribution (b : String × List Char) : Option UiDescriptor :=
  if b.1 = "Ui" then (parseJson (String.mk (trim b.2))).bind uiCheck
  else none

/-- Net contribution of one matched block to the thinking directive. -/
def thinkingContribution (b : String × List Char) : Option ThinkingDirective :=
  if b.1 = "Thinking" then (parseJson (String.mk (trim b.2))).bind thinkingCheck
  else none

end Parser

/-- `parseDirectives` from `src/parser.ts`: scan all fenced directive blocks,
parse each payload as JSON, validate the kind-specific required fields, and
accumulate; malformed blocks contribute nothing (a thrown `JSON.parse` error
is caught per block). -/
def parseDirectives (rawText : String) : ParsedMessage :=
  let acc := (Parser.blocks rawText.data).foldl Parser.accumulate ([], [], none)
  { rawText := rawText
    tasks := acc.1
    ui := acc.2.1
    thinkingDirective := acc.2.2 }

/-! ## Dependency queue (src/task-queue.ts) -/

/-- State of a `TaskQueue`.  The JS objects `tasks` and `taskResults` are
written only under the key `task.id` / `result.id`, so they are modeled as
lists keyed by that field (update keeps the original position, as JS object
property update does); `pending` is a `Set` iterated in insertion order. -/
structure TaskQueue where
  tasks : List Task
  results : List TaskResult
  pending : List String
deriving Repr

namespace TaskQueue

def empty : TaskQueue := ⟨[], [], []⟩

/-- `this.tasks[task.id] = task`. -/
def upsertTask (ts : List Task) (t : Task) : List Task :=
  if ts.any (fun u => u.id = t.id) then
    ts.map (fun u => if u.id = t.id then t else u)
  else ts ++ [t]

/-- `this.taskResults[result.id] = result`. -/
def upsertResult (rs : List TaskResult) (r : TaskResult) : List TaskResult :=
  if rs.any (fun u => u.id = r.id) then
    rs.map (fun u => if u.id = r.id then r else u)
  else rs ++ [r]

/-- `this.taskResults.hasOwnProperty(id)` / `id in this.taskResults`. -/
def hasResult (q : TaskQueue) (id : String) : Bool :=
  q.results.any (fun r => r.id = id)

def findResult (q : TaskQueue) (id : String) : Option TaskResult :=
  q.results.find? (fun r => r.id = id)

def findTask (q : TaskQueue) (id : String) : Option Task :=
  q.tasks.find? (fun t => t.id = id)

/-- `TaskQueue.add`: update the definition unconditionally; only make the id
pending when it has no recorded result (re-issued completed work is not
re-enqueued; the source logs a warning in that case). -/
def add (q : TaskQueue) (t : Task) : TaskQueue :=
  let q1 : TaskQueue := { q with tasks := upsertTask q.tasks t }
  if q1.hasResult t.id then q1
  else
    { q1 with
        pending :=
          if q1.pending.contains t.id then q1.pending
          else q1.pending ++ [t.id] }

/-- `TaskQueue.addMany`. -/
def addMany (q : TaskQueue) (ts : List Task) : TaskQueue :=
  ts.foldl add q

/-- Readiness predicate of `nextReady`'s `find` callback:
`!task.dependsOn || task.dependsOn.every(depId => depId in this.taskResults)`.
A pending id with no stored task cannot arise through the public API (`add`
always stores the definition first); the JS code would throw there and the
model returns `false`. -/
def taskReady (q : TaskQueue) (tid : String) : Bool :=
  match q.findTask tid with
  | some t =>
    match t.dependsOn with
    | none => true
    | some deps => deps.all (fun d => q.hasResult d)
  | none => false

/-- `TaskQueue.nextReady`: first pending id (insertion order) whose
dependencies all have results.  The source returns
`readyTaskId ? this.tasks[readyTaskId] : undefined`, so a found empty-string
id yields `undefined` (JS falsiness) — modeled faithfully. -/
def nextReady (q : TaskQueue) : Option Task :=
  match q.pending.find? (fun tid => taskReady q tid) with
  | some tid => if tid = "" then none else q.findTask tid
  | none => none

/-- `TaskQueue.complete`: `none` models the thrown
`Task ${id} not found in pending tasks` invariant error. -/
def complete (q : TaskQueue) (r : TaskResult) : Option TaskQueue :=
  if q.pending.contains r.id then
    some
      { q with
          results := upsertResult q.results r
          pending := q.pending.erase r.id }
  else none

/-- `TaskQueue.isFinished`. -/
def isFinished (q : TaskQueue) : Bool :=
  q.pending.isEmpty

end TaskQueue

/-! ## Action runner (src/executor.ts) -/

/-- The runtime context handed to every handler call (`fetch`/`wait` made
pure; extra host-declared capabilities are outside the model). -/
structure RuntimeEnv where
  fetch : String → Except String Json
  wait : Nat → Unit

/-- A capability handler (`CapabilityStrategy` from `src/types.ts`).  `run`
returns `Except.error` for a throw/rejection. -/
structure CapabilityStrategy where
  kind : String
  description : String
  signature : String
  run : Option Json → RuntimeEnv → Except String Json

/-- The `Executor`: a handler list indexed at construction plus the shared
runtime context. -/
structure Executor where
  strategies : List CapabilityStrategy
  env : RuntimeEnv

namespace Executor

/-- The constructor's `reduce`: index strategies by kind (later duplicates
overwrite earlier ones, first position kept, as JS object assignment does). -/
def table (caps : List CapabilityStrategy) : List CapabilityStrategy :=
  caps.foldl
    (fun acc s =>
      if acc.any (fun u => u.kind = s.kind) then
        acc.map (fun u => if u.kind = s.kind then s else u)
      else acc ++ [s])
    []

/-- `this.strategies[kind]`. -/
def lookup (ex : Executor) (kind : String) : Option CapabilityStrategy :=
  (table ex.strategies).find? (fun s => s.kind = kind)

/-- `Executor.runTask`: total — the JS body is wrapped in a `try`/`catch`, so
every outcome is a `TaskResult` and nothing escapes. -/
def runTask (ex : Executor) (t : Task) : TaskResult :=
  match ex.lookup t.kind with
  | none =>
    { id := t.id
      status := TStatus.error
      output := none
      error := some ("No strategy registered for capability kind: " ++ t.kind) }
  | some strategy =>
    match strategy.run t.params ex.env with
    | Except.ok output =>
      { id := t.id, status := TStatus.ok, output := some output, error := none }
    | Except.error e =>
      { id := t.id, status := TStatus.error, output := none, error := some e }

end Executor

/-! ## Orchestrator (src/agent.ts) -/

/-- The per-turn mutable state of `Agent.chat`.  `trace` records every task
handed to `executor.runTask` (the `taskStart` events), `warnings` the
`console.warn` calls of the loops, `doneQueues` the final state of each
`TaskQueue` a `processRegularTasks` call retired — all ghost fields that do
not influence control flow. -/
structure AgentState where
  history : List HistoryEntry
  accUi : List UiDescriptor
  callIdx : Nat
  trace : List Task
  warnings : List String
  doneQueues : List TaskQueue
deriving Repr

def stallWarning : String :=
  "Agent loop stalled: No tasks ready and queue not finished. Breaking."

def batchCapWarning : String :=
  "Agent reached maximum iterations (5)."

def thinkingCapWarning : String :=
  "Thinking directive reached maximum iterations (10)."

/-- A `tool` history entry from a task result. -/
def toolEntry (r : TaskResult) : HistoryEntry :=
  HistoryEntry.tool r.id r.status r.output r.error

/-- One `taskStart` + `executor.runTask` step. -/
def runTaskStep (ex : Executor) (t : Task) (st : AgentState) :
    TaskResult × AgentState :=
  (ex.runTask t, { st with trace := st.trace ++ [t] })

/-- The `forEach` appends of parsed UI descriptors after a follow-up
generation: pushed only when no accumulated descriptor has the same id. -/
def mergeUi (acc : List UiDescriptor) (ds : List UiDescriptor) :
    List UiDescriptor :=
  ds.foldl
    (fun a d => if a.any (fun e => e.id = d.id) then a else a ++ [d])
    acc

/-- The inner drain loop of `processRegularTasks`: `nextReady` / execute /
`complete` until nothing is ready.  Fuel `pending.length + 1` is always
enough since each step removes one pending id.  A failing `complete` is
unreachable here because `nextReady` only returns tasks whose id is pending
(in JS it would throw). -/
def drain (ex : Executor) :
    Nat → TaskQueue → AgentState → List TaskResult →
    TaskQueue × AgentState × List TaskResult
  | 0, q, st, acc => (q, st, acc)
  | fuel + 1, q, st, acc =>
    match q.nextReady with
    | none => (q, st, acc)
    | some t =>
      let p := runTaskStep ex t st
      match q.complete p.1 with
      | some q2 => drain ex fuel q2 p.2 (acc ++ [p.1])
      | none => (q, p.2, acc ++ [p.1])

/-- The `while (iterationCount < maxIterations)` loop of
`processRegularTasks`.  `remaining` counts passes left (entered with `5, 0`),
`count` is `iterationCount`; the result carries the state, the final queue,
an optional Thinking directive to hand back (the source calls
`processThinkingDirective` and immediately breaks, so returning the signal is
equivalent), and the final `iterationCount`. -/
def regularPasses (ex : Executor) (gen : Nat → String) :
    Nat → Nat → TaskQueue → AgentState →
    AgentState × TaskQueue × Option ThinkingDirective × Nat
  | 0, count, q, st => (st, q, none, count)
  | remaining + 1, count, q, st =>
    let count' := count + 1
    let d := drain ex (q.pending.length + 1) q st []
    let q1 := d.1
    let results := d.2.2
    let st2 := { d.2.1 with history := d.2.1.history ++ results.map toolEntry }
    if q1.isFinished then
      if results.isEmpty then
        (st2, q1, none, count')
      else
        let resp := gen st2.callIdx
        let st3 :=
          { st2 with
              history := st2.history ++ [HistoryEntry.assistant resp]
              callIdx := st2.callIdx + 1 }
        let parsed := parseDirectives resp
        let st4 := { st3 with accUi := mergeUi st3.accUi parsed.ui }
        match parsed.thinkingDirective with
        | some td => (st4, q1, some td, count')
        | none =>
          if parsed.tasks.isEmpty then (st4, q1, none, count')
          else regularPasses ex gen remaining count' (q1.addMany parsed.tasks) st4
    else
      if results.isEmpty then
        ({ st2 with warnings := st2.warnings ++ [stallWarning] }, q1, none, count')
      else
        regularPasses ex gen remaining count' q1 st2

/-- The `while (currentThinkingTasks.length > 0 && iterationCount < max)`
loop of `processThinkingDirective` (entered with `10, 0`): one executed task
and one generation call per iteration; a new Thinking plan replaces the
remaining steps; ordinary tasks are signalled back (the source calls
`processRegularTasks` and immediately breaks). -/
def thinkLoop (ex : Executor) (gen : Nat → String) :
    Nat → Nat → List Task → AgentState →
    AgentState × Option (List Task) × Nat
  | 0, count, _, st => (st, none, count)
  | remaining + 1, count, tasks, st =>
    match tasks with
    | [] => (st, none, count)
    | t :: rest =>
      let count' := count + 1
      let p := runTaskStep ex t st
      let st2 := { p.2 with history := p.2.history ++ [toolEntry p.1] }
      let resp := gen st2.callIdx
      let st3 :=
        { st2 with
            history := st2.history ++ [HistoryEntry.assistant resp]
            callIdx := st2.callIdx + 1 }
      let parsed := parseDirectives resp
      let st4 := { st3 with accUi := mergeUi st3.accUi parsed.ui }
      match parsed.thinkingDirective with
      | some td => thinkLoop ex gen remaining count' td.tasks st4
      | none =>
        if parsed.tasks.isEmpty then thinkLoop ex gen remaining count' rest st4
        else (st4, some parsed.tasks, count')

mutual

/-- `Agent.processThinkingDirective`.  `fuel` bounds the mutual recursion
with `processRegularTasks` (unbounded in the JS source); at `0` the model
stops, which no claim reaches. -/
def processThinkingDirective (ex : Executor) (gen : Nat → String) :
    Nat → ThinkingDirective → AgentState → AgentState
  | 0, _, st => st
  | fuel + 1, td, st =>
    let r := thinkLoop ex gen 10 0 td.tasks st
    let st2 :=
      match r.2.1 with
      | some ts => processRegularTasks ex gen fuel ts r.1
      | none => r.1
    if 10 ≤ r.2.2 then
      { st2 with warnings := st2.warnings ++ [thinkingCapWarning] }
    else st2

/-- `Agent.processRegularTasks`: fresh queue, `addMany`, bounded pass loop,
then possibly a Thinking hand-off. -/
def processRegularTasks (ex : Executor) (gen : Nat → String) :
    Nat → List Task → AgentState → AgentState
  | 0, _, st => st
  | fuel + 1, tasks, st =>
    let q0 := TaskQueue.empty.addMany tasks
    let r := regularPasses ex gen 5 0 q0 st
    let st1 := { r.1 with doneQueues := r.1.doneQueues ++ [r.2.1] }
    let st2 :=
      match r.2.2.1 with
      | some td => processThinkingDirective ex gen fuel td st1
      | none => st1
    if 5 ≤ r.2.2.2 then
      { st2 with warnings := st2.warnings ++ [batchCapWarning] }
    else st2

end

/-- Result of one `Agent.chat` turn: the returned history plus the mount
calls issued to the `uiAdapter` (one per accumulated descriptor, in order)
and the final internal state. -/
structure ChatResult where
  history : List HistoryEntry
  mounts : List UiDescriptor
  state : AgentState
deriving Repr

/-- `Agent.chat`: seed history, one generation, parse, push all first-pass UI
descriptors (without id dedup), branch on the Thinking directive, then mount
every accumulated descriptor.  The generator is modeled by the sequence of
its responses `gen`. -/
def chat (ex : Executor) (gen : Nat → String) (fuel : Nat)
    (initialInput : String ⊕ List HistoryEntry) : ChatResult :=
  let hist0 :=
    match initialInput with
    | Sum.inl s => [HistoryEntry.user s]
    | Sum.inr h => h
  let st0 : AgentState :=
    { history := hist0, accUi := [], callIdx := 0, trace := []
      warnings := [], doneQueues := [] }
  let resp := gen 0
  let st1 :=
    { st0 with history := st0.history ++ [HistoryEntry.assistant resp]
               callIdx := 1 }
  let parsed := parseDirectives resp
  let st2 := { st1 with accUi := st1.accUi ++ parsed.ui }
  let st3 :=
    match parsed.thinkingDirective with
    | some td => processThinkingDirective ex gen fuel td st2
    | none => processRegularTasks ex gen fuel parsed.tasks st2
  { history := st3.history, mounts := st3.accUi, state := st3 }

/-! ## Concrete fixtures used by witnesses and counterexamples -/

def env0 : RuntimeEnv :=
  { fetch := fun _ => Except.error "offline", wait := fun _ => () }

def okStrategy : CapabilityStrategy :=
  { kind := "callApi", description := "call an HTTP API"
    signature := "url: string"
    run := fun _ _ => Except.ok (Json.str "sunny") }

def ex0 : Executor := { strategies := [okStrategy], env := env0 }

def exEmpty : Executor := { strategies := [], env := env0 }

def st0 : AgentState :=
  { history := [], accUi := [], callIdx := 0, trace := []
    warnings := [], doneQueues := [] }

def genSingleTask : Nat → String := fun n =>
  if n = 0 then "I will check. ```Task\n\x7b\"id\":\"t1\",\"kind\":\"callApi\"\x7d\n```"
  else "The weather is sunny."

def genDupThinking : Nat → String := fun n =>
  if n = 0 then
    "```Thinking\n\x7b\"tasks\":[\x7b\"id\":\"t1\",\"kind\":\"callApi\"\x7d,\x7b\"id\":\"t1\",\"kind\":\"callApi\"\x7d]\x7d\n```"
  else "ok"

def genDupUi : Nat → String := fun _ =>
  "```Ui\n\x7b\"id\":\"u1\",\"type\":\"A\"\x7d\n```\n```Ui\n\x7b\"id\":\"u1\",\"type\":\"B\"\x7d\n```"

def genAlwaysThinking : Nat → String := fun _ =>
  "```Thinking\n\x7b\"tasks\":[\x7b\"id\":\"x\",\"kind\":\"callApi\"\x7d]\x7d\n```"

def alwaysThinkingDirective : ThinkingDirective :=
  ⟨[{ id := "x", kind := "callApi", params := none, dependsOn := none }]⟩

def stallQueue : TaskQueue :=
  TaskQueue.empty.add { id := "b", kind := "k", params := none, dependsOn := some ["missing"] }

def emptyIdTask : Task := { id := "", kind := "k", params := none, dependsOn := none }

def emptyIdQueue : TaskQueue := TaskQueue.empty.add emptyIdTask

def taskT1 : Task := { id := "t1", kind := "callApi", params := none, dependsOn := none }

def resultT1 : TaskResult :=
  { id := "t1", status := TStatus.ok, output := none, error := none }

/-- A queue in which `t1` has already completed. -/
def doneQueueT1 : TaskQueue := { tasks := [taskT1], results := [resultT1], pending := [] }

def uiA : UiDescriptor := { id := "u1", type := "A", props := none, events := none }

def uiB : UiDescriptor := { id := "u2", type := "B", props := none, events := none }

/-- A re-add of completed `t1` with new params. -/
def taskT1Again : Task :=
  { id := "t1", kind := "callApi", params := some (Json.num 2), dependsOn := none }

/-- Last valid `Thinking` block wins; keeps `dflt` when none is valid. -/
def Parser.lastThinking (dflt : Option ThinkingDirective)
    (bs : List (String × List Char)) : Option ThinkingDirective :=
  match (bs.filterMap Parser.thinkingContribution).getLast? with
  | some td => some td
  | none => dflt

/-- Queue well-formedness: pending ids are distinct and none of them has a
recorded result.  It holds for the empty queue and is preserved by every
public operation, so every queue reachable through the API satisfies it. -/
def TaskQueue.Wf (q : TaskQueue) : Prop :=
  q.pending.Nodup ∧ ∀ id ∈ q.pending, q.hasResult id = false

/-! ## Theorems -/

/-- C1: `Executor.runTask` resolves for every task, handler table and runtime
context (the Lean embedding is a total function, mirroring the source's
all-enclosing `try`/`catch`): an unregistered kind gives `status=error` with
the descriptive message; a handler error gives `status=error` carrying the
cause; a handler success gives `status=ok` with the value as output. -/
theorem runTask_total_outcomes (caps : List CapabilityStrategy)
    (env : RuntimeEnv) (t : Task) :
    (Executor.lookup ⟨caps, env⟩ t.kind = none →
      Executor.runTask ⟨caps, env⟩ t =
        { id := t.id, status := TStatus.error, output := none
          error := some ("No strategy registered for capability kind: " ++ t.kind) }) ∧
    (∀ s e, Executor.lookup ⟨caps, env⟩ t.kind = some s →
      s.run t.params env = Except.error e →
      Executor.runTask ⟨caps, env⟩ t =
        { id := t.id, status := TStatus.error, output := none, error := some e }) ∧
    (∀ s v, Executor.lookup ⟨caps, env⟩ t.kind = some s →
      s.run t.params env = Except.ok v →
      Executor.runTask ⟨caps, env⟩ t =
        { id := t.id, status := TStatus.ok, output := some v, error := none }) := by
  refine ⟨fun h => ?_, fun s e hs hr => ?_, fun s v hs hr => ?_⟩
  · simp only [Executor.runTask, h]
  · simp only [Executor.runTask, hs, hr]
  · simp only [Executor.runTask, hs, hr]

/-- C1 witness: the three outcomes at concrete inputs. -/
theorem runTask_total_outcomes_witness :
    Executor.runTask exEmpty taskT1 =
      { id := "t1", status := TStatus.error, output := none
        error := some "No strategy registered for capability kind: callApi" } ∧
    Executor.runTask ex0 taskT1 =
      { id := "t1", status := TStatus.ok, output := some (Json.str "sunny")
        error := none } := by
  constructor
  · simpa [exEmpty, taskT1] using (runTask_total_outcomes [] env0 taskT1).1 rfl
  · simpa [ex0, taskT1] using
      (runTask_total_outcomes [okStrategy] env0 taskT1).2.2 okStrategy
        (Json.str "sunny") rfl rfl

/-- C4 (divergence exhibit): in `emptyIdQueue` the sole pending request has
the empty-string id and no dependencies, so a pending request satisfies the
readiness predicate, yet `nextReady` returns none: the source's
`readyTaskId ? this.tasks[readyTaskId] : undefined` treats the found id `""`
as falsy.  This contradicts both the claim and the function's own
documentation ("The next task ready for execution or undefined if none is
ready"). -/
theorem nextReady_empty_id_divergence :
    emptyIdQueue.pending = [""] ∧
    TaskQueue.taskReady emptyIdQueue "" = true ∧
    TaskQueue.nextReady emptyIdQueue = none :=
  ⟨rfl, rfl, rfl⟩

/-- `add` never touches the recorded results. -/
theorem add_results_eq (q : TaskQueue) (t : Task) :
    (q.add t).results = q.results := by
  simp only [TaskQueue.add]
  split <;> rfl

/-- `addMany` never touches the recorded results. -/
theorem addMany_results_eq (q : TaskQueue) (ts : List Task) :
    (q.addMany ts).results = q.results := by
  induction ts generalizing q with
  | nil => rfl
  | cons t ts ih => simp only [TaskQueue.addMany, List.foldl_cons] at ih ⊢
                    rw [ih, add_results_eq]

theorem hasResult_add_eq (q : TaskQueue) (t : Task) (i : String) :
    (q.add t).hasResult i = q.hasResult i := by
  simp only [TaskQueue.hasResult, add_results_eq]

theorem hasResult_addMany_eq (q : TaskQueue) (ts : List Task) (i : String) :
    (q.addMany ts).hasResult i = q.hasResult i := by
  simp only [TaskQueue.hasResult, addMany_results_eq]

/-- Re-adding an id that has a result leaves `pending` untouched. -/
theorem add_pending_of_hasResult (q : TaskQueue) (t : Task)
    (h : q.hasResult t.id = true) :
    (q.add t).pending = q.pending := by
  simp only [TaskQueue.add, TaskQueue.hasResult] at h ⊢
  simp [h]

/-- `add` reads only `results` and `pending`; queues equal there stay equal
there after an `add`. -/
theorem add_congr (q1 q2 : TaskQueue) (u : Task)
    (hr : q1.results = q2.results) (hp : q1.pending = q2.pending) :
    (q1.add u).results = (q2.add u).results ∧
    (q1.add u).pending = (q2.add u).pending := by
  simp only [TaskQueue.add, TaskQueue.hasResult, hr, hp]
  split <;> simp [hr, hp]

theorem addMany_congr (ts : List Task) (q1 q2 : TaskQueue)
    (hr : q1.results = q2.results) (hp : q1.pending = q2.pending) :
    (q1.addMany ts).results = (q2.addMany ts).results ∧
    (q1.addMany ts).pending = (q2.addMany ts).pending := by
  induction ts generalizing q1 q2 with
  | nil => exact ⟨hr, hp⟩
  | cons t ts ih =>
    have h := add_congr q1 q2 t hr hp
    simpa only [TaskQueue.addMany, List.foldl_cons] using ih _ _ h.1 h.2

theorem addMany_append (q : TaskQueue) (l1 l2 : List Task) :
    q.addMany (l1 ++ l2) = (q.addMany l1).addMany l2 := by
  simp [TaskQueue.addMany]

/-- C5: once id `x` has a recorded result, re-adding a request with id `x`
(directly, or anywhere inside an `addMany` batch) leaves `pending` and
`results` unchanged — so `isFinished` can never flip — updates only the
stored task definition, and does not change whether any `complete` call can
succeed (no second result can be produced for `x`). -/
theorem readd_with_result_is_noop (q : TaskQueue) (t : Task)
    (h : q.hasResult t.id = true) :
    (q.add t).pending = q.pending ∧
    (q.add t).results = q.results ∧
    (q.add t).tasks = TaskQueue.upsertTask q.tasks t ∧
    (q.add t).isFinished = q.isFinished ∧
    (∀ r : TaskResult, ((q.add t).complete r).isSome = (q.complete r).isSome) ∧
    (∀ ts1 ts2 : List Task,
      (q.addMany (ts1 ++ t :: ts2)).pending = (q.addMany (ts1 ++ ts2)).pending ∧
      (q.addMany (ts1 ++ t :: ts2)).results = q.results) := by
  have hp := add_pending_of_hasResult q t h
  refine ⟨hp, add_results_eq q t, ?_, ?_, ?_, ?_⟩
  · simp only [TaskQueue.add, TaskQueue.hasResult] at h ⊢
    simp [h]
  · simp only [TaskQueue.isFinished, hp]
  · intro r
    simp only [TaskQueue.complete, hp]
    split <;> rfl
  · intro ts1 ts2
    have h1 : (q.addMany ts1).hasResult t.id = true := by
      rw [hasResult_addMany_eq]; exact h
    have hpp := add_pending_of_hasResult (q.addMany ts1) t h1
    have hrr := add_results_eq (q.addMany ts1) t
    have hc := addMany_congr ts2 ((q.addMany ts1).add t) (q.addMany ts1) hrr hpp
    constructor
    · rw [addMany_append, addMany_append]
      simpa only [TaskQueue.addMany, List.foldl_cons] using hc.2
    · rw [addMany_append]
      have : ((q.addMany ts1).addMany (t :: ts2)).results
          = ((q.addMany ts1).add t).results := by
        simpa only [TaskQueue.addMany, List.foldl_cons] using
          addMany_results_eq ((q.addMany ts1).add t) ts2
      rw [this, hrr, addMany_results_eq]

/-- C5 witness: the noop theorem applied to `doneQueueT1`. -/
theorem readd_with_result_is_noop_witness :
    doneQueueT1.hasResult taskT1Again.id = true ∧
    (doneQueueT1.add taskT1Again).pending = doneQueueT1.pending ∧
    (doneQueueT1.add taskT1Again).isFinished = doneQueueT1.isFinished :=
  ⟨rfl, (readd_with_result_is_noop doneQueueT1 taskT1Again rfl).1,
    (readd_with_result_is_noop doneQueueT1 taskT1Again rfl).2.2.2.1⟩

/-- C7: if at the start of a batch pass the queue is not finished but
nothing is ready (so zero requests execute in the pass), the loop stops in
that very pass, records the stall warning, and leaves queue, history and
trace untouched — the turn then returns the accumulated history rather than
hanging. -/
theorem stall_pass_terminates (ex : Executor) (gen : Nat → String)
    (remaining count : Nat) (q : TaskQueue) (st : AgentState)
    (hfin : q.isFinished = false) (hnr : q.nextReady = none) :
    regularPasses ex gen (remaining + 1) count q st =
      ({ st with warnings := st.warnings ++ [stallWarning] }, q, none, count + 1) := by
  simp only [regularPasses, drain, hnr, hfin, List.map_nil, List.append_nil,
    List.isEmpty_nil, if_true, Bool.false_eq_true, if_false]


/-- C7 witness: a queue whose only pending request depends on an id never
enqueued stalls the pass loop immediately. -/
theorem stall_pass_terminates_witness :
    stallQueue.isFinished = false ∧ stallQueue.nextReady = none ∧
    regularPasses ex0 genSingleTask 5 0 stallQueue st0 =
      ({ st0 with warnings := [stallWarning] }, stallQueue, none, 1) := by
  refine ⟨rfl, rfl, ?_⟩
  simpa using stall_pass_terminates ex0 genSingleTask 4 0 stallQueue st0 rfl rfl

/-- C10: the required-field validation of `parseDirectives` tests JS
truthiness rather than presence: a `Task` (resp. `Ui`) payload whose
`id`/`kind` (resp. `id`/`type`) field is present but falsy is dropped and
contributes nothing; concretely, a Task block with `id: ""` and a well-formed
`kind` yields no task. -/
theorem falsy_required_field_dropped :
    (∀ j v, Json.getField j "id" = some v → v.truthy = false →
      Parser.taskCheck j = none) ∧
    (∀ j v, Json.getField j "kind" = some v → v.truthy = false →
      Parser.taskCheck j = none) ∧
    (∀ j v, Json.getField j "id" = some v → v.truthy = false →
      Parser.uiCheck j = none) ∧
    (∀ j v, Json.getField j "type" = some v → v.truthy = false →
      Parser.uiCheck j = none) ∧
    parseDirectives "```Task\n\x7b\"id\":\"\",\"kind\":\"x\"\x7d\n```" =
      { rawText := "```Task\n\x7b\"id\":\"\",\"kind\":\"x\"\x7d\n```"
        tasks := [], ui := [], thinkingDirective := none } := by
  refine ⟨?_, ?_, ?_, ?_, rfl⟩ <;> intro j v hf ht <;>
    simp [Parser.taskCheck, Parser.uiCheck, Json.truthyField, hf, ht]

/-- C10 witness: a payload with both required fields present but a falsy id. -/
theorem falsy_required_field_dropped_witness :
    Parser.taskCheck (Json.obj [("id", Json.str ""), ("kind", Json.str "x")]) = none :=
  falsy_required_field_dropped.1
    (Json.obj [("id", Json.str ""), ("kind", Json.str "x")]) (Json.str "") rfl rfl

/-- One step of the parse loop, phrased through the per-block contribution
functions. -/
theorem accumulate_spec
    (acc : List Task × List UiDescriptor × Option ThinkingDirective)
    (b : String × List Char) :
    (Parser.accumulate acc b).1 = acc.1 ++ (Parser.taskContribution b).toList ∧
    (Parser.accumulate acc b).2.1 = acc.2.1 ++ (Parser.uiContribution b).toList ∧
    (Parser.accumulate acc b).2.2 =
      (match Parser.thinkingContribution b with
       | some td => some td
       | none => acc.2.2) := by
  obtain ⟨tag, pl⟩ := b
  simp only [Parser.accumulate, Parser.taskContribution, Parser.uiContribution,
    Parser.thinkingContribution]
  cases hp : parseJson (String.mk (Parser.trim pl)) with
  | none => simp
  | some payload =>
    by_cases h1 : tag = "Task"
    · subst h1
      simp only [if_true, reduceIte, Option.bind_some]
      cases hc : Parser.taskCheck payload <;> simp [hc]
    · by_cases h2 : tag = "Ui"
      · subst h2
        simp only [reduceIte, Option.bind_some]
        cases hc : Parser.uiCheck payload <;> simp [hc]
      · by_cases h3 : tag = "Thinking"
        · subst h3
          simp only [reduceIte, Option.bind_some]
          cases hc : Parser.thinkingCheck payload <;> simp [hc]
        · simp [h1, h2, h3]

/-- Peeling one block off `lastThinking`. -/
theorem lastThinking_cons (dflt : Option ThinkingDirective)
    (b : String × List Char) (bs : List (String × List Char)) :
    Parser.lastThinking dflt (b :: bs) =
      Parser.lastThinking
        (match Parser.thinkingContribution b with
         | some td => some td
         | none => dflt) bs := by
  unfold Parser.lastThinking
  rw [List.filterMap_cons]
  cases hc : Parser.thinkingContribution b with
  | none => rfl
  | some td =>
    cases hrest : bs.filterMap Parser.thinkingContribution with
    | nil => rfl
    | cons c cs =>
      have hz : ((c :: cs).getLast?).isSome :=
        List.getLast?_isSome.mpr (List.cons_ne_nil c cs)
      obtain ⟨z, hzz⟩ := Option.isSome_iff_exists.mp hz
      rw [List.getLast?_cons_cons, hzz]

/-- The whole parse loop, blockwise. -/
theorem parse_fold_spec (bs : List (String × List Char)) :
    ∀ acc : List Task × List UiDescriptor × Option ThinkingDirective,
    (bs.foldl Parser.accumulate acc).1
        = acc.1 ++ bs.filterMap Parser.taskContribution ∧
    (bs.foldl Parser.accumulate acc).2.1
        = acc.2.1 ++ bs.filterMap Parser.uiContribution ∧
    (bs.foldl Parser.accumulate acc).2.2 = Parser.lastThinking acc.2.2 bs := by
  induction bs with
  | nil => intro acc; simp [Parser.lastThinking]
  | cons b bs ih =>
    intro acc
    obtain ⟨hb1, hb2, hb3⟩ := accumulate_spec acc b
    obtain ⟨h1, h2, h3⟩ := ih (Parser.accumulate acc b)
    simp only [List.foldl_cons, List.filterMap_cons]
    refine ⟨?_, ?_, ?_⟩
    · rw [h1, hb1]
      cases hc : Parser.taskContribution b <;> simp
    · rw [h2, hb2]
      cases hc : Parser.uiContribution b <;> simp
    · rw [h3, hb3, ← lastThinking_cons]

/-- C6: extraction is blockwise and total — for every input text, each
matched fenced block contributes independently (`tasks` and `ui` are exactly
the per-block contributions in order; the thinking directive is the last
valid `Thinking` contribution), so a block whose payload is invalid JSON or
fails its kind-specific required-field check has contribution `none` and
neither aborts the parse nor affects any other block; the raw text is
returned verbatim.  Totality of `parseDirectives` models "never throws". -/
theorem parse_malformed_blocks_isolated (s : String) :
    (parseDirectives s).tasks
        = (Parser.blocks s.data).filterMap Parser.taskContribution ∧
    (parseDirectives s).ui
        = (Parser.blocks s.data).filterMap Parser.uiContribution ∧
    (parseDirectives s).thinkingDirective
        = ((Parser.blocks s.data).filterMap Parser.thinkingContribution).getLast? ∧
    (parseDirectives s).rawText = s := by
  obtain ⟨h1, h2, h3⟩ := parse_fold_spec (Parser.blocks s.data) ([], [], none)
  refine ⟨?_, ?_, ?_, rfl⟩
  · simpa [parseDirectives] using h1
  · simpa [parseDirectives] using h2
  · rw [show (parseDirectives s).thinkingDirective
        = ((Parser.blocks s.data).foldl Parser.accumulate ([], [], none)).2.2 from rfl,
      h3, Parser.lastThinking]
    cases ((Parser.blocks s.data).filterMap Parser.thinkingContribution).getLast? <;> rfl


/-- When every generator response parses to a new nonempty Thinking plan,
the think loop consumes its whole budget: no hand-off, final count
`count + k`, and per iteration exactly one executed task, one generation
call, two history entries and no warning. -/
theorem thinkLoop_exhausts (ex : Executor) (gen : Nat → String)
    (H : ∀ n, ∃ td : ThinkingDirective,
      (parseDirectives (gen n)).thinkingDirective = some td ∧ td.tasks ≠ []) :
    ∀ (k count : Nat) (tasks : List Task) (st : AgentState), tasks ≠ [] →
      (thinkLoop ex gen k count tasks st).2.1 = none ∧
      (thinkLoop ex gen k count tasks st).2.2 = count + k ∧
      (thinkLoop ex gen k count tasks st).1.trace.length = st.trace.length + k ∧
      (thinkLoop ex gen k count tasks st).1.callIdx = st.callIdx + k ∧
      (thinkLoop ex gen k count tasks st).1.history.length
          = st.history.length + 2 * k ∧
      (thinkLoop ex gen k count tasks st).1.warnings = st.warnings := by
  intro k
  induction k with
  | zero =>
    intro count tasks st hne
    simp [thinkLoop]
  | succ k ih =>
    intro count tasks st hne
    obtain ⟨t, rest, rfl⟩ : ∃ t rest, tasks = t :: rest := by
      cases tasks with
      | nil => exact absurd rfl hne
      | cons a l => exact ⟨a, l, rfl⟩
    obtain ⟨td, htd, htasks⟩ := H st.callIdx
    simp only [thinkLoop, runTaskStep, htd]
    refine ⟨?_, ?_, ?_, ?_, ?_, ?_⟩
    · rw [(ih (count + 1) td.tasks _ htasks).1]
    · rw [(ih (count + 1) td.tasks _ htasks).2.1]; omega
    · rw [(ih (count + 1) td.tasks _ htasks).2.2.1]; simp; omega
    · rw [(ih (count + 1) td.tasks _ htasks).2.2.2.1]; simp; omega
    · rw [(ih (count + 1) td.tasks _ htasks).2.2.2.2.1]; simp; omega
    · rw [(ih (count + 1) td.tasks _ htasks).2.2.2.2.2]

/-- C8: if the initial plan is nonempty and every generator response during
plan processing parses to a new nonempty Thinking plan, plan stepping
performs exactly the configured maximum of 10 steps — one executed task and
one generation call (two history entries) per step — and then stops,
appending the max-iterations warning (and nothing else: the run still
returns normally). -/
theorem thinking_cap_stops_at_max (ex : Executor) (gen : Nat → String)
    (fuel : Nat) (td : ThinkingDirective) (st : AgentState)
    (H : ∀ n, ∃ td' : ThinkingDirective,
      (parseDirectives (gen n)).thinkingDirective = some td' ∧ td'.tasks ≠ [])
    (h0 : td.tasks ≠ []) :
    (processThinkingDirective ex gen (fuel + 1) td st).trace.length
        = st.trace.length + 10 ∧
    (processThinkingDirective ex gen (fuel + 1) td st).callIdx
        = st.callIdx + 10 ∧
    (processThinkingDirective ex gen (fuel + 1) td st).history.length
        = st.history.length + 20 ∧
    (processThinkingDirective ex gen (fuel + 1) td st).warnings
        = st.warnings ++ [thinkingCapWarning] := by
  obtain ⟨h1, h2, h3, h4, h5, h6⟩ := thinkLoop_exhausts ex gen H 10 0 td.tasks st h0
  simp [processThinkingDirective, h1, h2, h3, h4, h5, h6]

/-- C8 witness: a generator that always answers with a one-task plan. -/
theorem thinking_cap_stops_at_max_witness :
    (processThinkingDirective ex0 genAlwaysThinking 1
        alwaysThinkingDirective st0).trace.length = 10 ∧
    (processThinkingDirective ex0 genAlwaysThinking 1
        alwaysThinkingDirective st0).warnings = [thinkingCapWarning] := by
  have H : ∀ n, ∃ td' : ThinkingDirective,
      (parseDirectives (genAlwaysThinking n)).thinkingDirective = some td' ∧
      td'.tasks ≠ [] :=
    fun _ => ⟨alwaysThinkingDirective, rfl,
      by simp [alwaysThinkingDirective]⟩
  have h := thinking_cap_stops_at_max ex0 genAlwaysThinking 0
    alwaysThinkingDirective st0 H (by simp [alwaysThinkingDirective])
  exact ⟨h.1, by simpa [st0] using h.2.2.2⟩

/-- C9 (amended): the renderer receives exactly one mount call per element
of the accumulated DisplayRequest list, in first-seen order (the mount list
is the accumulated list itself), and a descriptor parsed from a response
after the first is only ever appended when no accumulated descriptor has its
id.  Descriptors of the first response are accumulated without that check —
see the counterexample. -/
theorem mounts_are_accumulated_ui (ex : Executor) (gen : Nat → String)
    (fuel : Nat) (input : String ⊕ List HistoryEntry) :
    (chat ex gen fuel input).mounts = (chat ex gen fuel input).state.accUi ∧
    (∀ acc ds d, d ∈ mergeUi acc ds → d ∈ acc ∨ ∀ e ∈ acc, e.id ≠ d.id) := by
  refine ⟨rfl, ?_⟩
  intro acc ds
  induction ds generalizing acc with
  | nil =>
    intro d hd
    exact Or.inl hd
  | cons d0 ds ih =>
    intro d hd
    simp only [mergeUi, List.foldl_cons] at hd
    by_cases hc : acc.any (fun e => e.id = d0.id)
    · rw [if_pos hc] at hd
      exact ih acc d hd
    · rw [if_neg hc] at hd
      rcases ih (acc ++ [d0]) d hd with hmem | hfresh
      · rcases List.mem_append.mp hmem with h | h
        · exact Or.inl h
        · right
          simp only [List.mem_singleton] at h
          subst h
          intro e he habs
          exact hc (List.any_eq_true.mpr ⟨e, he, by simp [habs]⟩)
      · right
        intro e he
        exact hfresh e (List.mem_append.mpr (Or.inl he))

/-- C9 witness: the theorem applied to a concrete run and a concrete later
merge. -/
theorem mounts_are_accumulated_ui_witness :
    (chat exEmpty genDupUi 1 (Sum.inl "hi")).mounts
        = (chat exEmpty genDupUi 1 (Sum.inl "hi")).state.accUi ∧
    (uiB ∈ [uiA] ∨ ∀ e ∈ [uiA], e.id ≠ uiB.id) :=
  ⟨(mounts_are_accumulated_ui exEmpty genDupUi 1 (Sum.inl "hi")).1,
    (mounts_are_accumulated_ui exEmpty genDupUi 1 (Sum.inl "hi")).2 [uiA] [uiB] uiB
      (by simp [mergeUi, uiA, uiB])⟩

/-- C9 counterexample: when the first generator response contains two Ui
directives with the same id `u1`, both are accumulated and the renderer
receives two mount calls for that id — duplicates within the first response
are mounted again, contrary to the claim. -/
theorem first_response_duplicate_ui_double_mount :
    ((chat exEmpty genDupUi 1 (Sum.inl "hi")).mounts.map UiDescriptor.id)
      = ["u1", "u1"] := rfl


/-- C2: a turn whose first response carries exactly one well-formed
dependency-free `callApi` task and nothing else, whose handler succeeds, and
whose second response carries no directives, ends with history
user/assistant/tool/assistant (length 4) and a fully drained queue. -/
theorem chat_single_task_turn (ex : Executor) (gen : Nat → String) (fuel : Nat)
    (input : String) (t : Task) (s : CapabilityStrategy) (v : Json)
    (h0 : parseDirectives (gen 0) =
      { rawText := gen 0, tasks := [t], ui := [], thinkingDirective := none })
    (hkind : t.kind = "callApi")
    (hid : t.id ≠ "")
    (hdep : t.dependsOn = none ∨ t.dependsOn = some [])
    (hs : ex.lookup "callApi" = some s)
    (hrun : s.run t.params ex.env = Except.ok v)
    (h1 : parseDirectives (gen 1) =
      { rawText := gen 1, tasks := [], ui := [], thinkingDirective := none }) :
    (chat ex gen (fuel + 1) (Sum.inl input)).history =
      [HistoryEntry.user input, HistoryEntry.assistant (gen 0),
       HistoryEntry.tool t.id TStatus.ok (some v) none,
       HistoryEntry.assistant (gen 1)] ∧
    (chat ex gen (fuel + 1) (Sum.inl input)).state.doneQueues.all
      TaskQueue.isFinished = true := by
  have hres : ex.runTask t =
      { id := t.id, status := TStatus.ok, output := some v, error := none } := by
    simp only [Executor.runTask, hkind, hs, hrun]
  have hready : TaskQueue.taskReady ⟨[t], [], [t.id]⟩ t.id = true := by
    rcases hdep with h | h <;>
      simp [TaskQueue.taskReady, TaskQueue.findTask, h]
  have hnr : TaskQueue.nextReady ⟨[t], [], [t.id]⟩ = some t := by
    simp [TaskQueue.nextReady, List.find?_cons, hready, hid, TaskQueue.findTask]
  have hnr2 : TaskQueue.nextReady
      ⟨[t], [{ id := t.id, status := TStatus.ok, output := some v, error := none }],
        []⟩ = none := rfl
  have hcomp : TaskQueue.complete ⟨[t], [], [t.id]⟩
      { id := t.id, status := TStatus.ok, output := some v, error := none } =
      some ⟨[t],
        [{ id := t.id, status := TStatus.ok, output := some v, error := none }],
        []⟩ := by
    simp [TaskQueue.complete, TaskQueue.upsertResult]
  have hpass : ∀ st : AgentState, st.callIdx = 1 →
      regularPasses ex gen 5 0 ⟨[t], [], [t.id]⟩ st =
        ({ st with
            history := st.history ++
              [HistoryEntry.tool t.id TStatus.ok (some v) none,
               HistoryEntry.assistant (gen 1)]
            callIdx := 2
            trace := st.trace ++ [t] },
         ⟨[t], [{ id := t.id, status := TStatus.ok, output := some v, error := none }],
           []⟩, none, 1) := by
    intro st hc
    simp [regularPasses, drain, runTaskStep, mergeUi, TaskQueue.isFinished,
      hnr, hnr2, hres, hcomp, hc, h1, toolEntry]
  constructor <;>
    simp [chat, h0, processRegularTasks, TaskQueue.addMany, TaskQueue.add,
      TaskQueue.empty, TaskQueue.hasResult, TaskQueue.upsertTask,
      TaskQueue.isFinished, hpass]


/-- C2 witness: the single-task turn at a concrete generator, handler table
and input. -/
theorem chat_single_task_turn_witness :
    (chat ex0 genSingleTask 1 (Sum.inl "weather in Paris")).history =
      [HistoryEntry.user "weather in Paris",
       HistoryEntry.assistant (genSingleTask 0),
       HistoryEntry.tool "t1" TStatus.ok (some (Json.str "sunny")) none,
       HistoryEntry.assistant (genSingleTask 1)] ∧
    (chat ex0 genSingleTask 1 (Sum.inl "weather in Paris")).state.doneQueues.all
      TaskQueue.isFinished = true := by
  have h := chat_single_task_turn ex0 genSingleTask 0 "weather in Paris" taskT1
    okStrategy (Json.str "sunny") rfl rfl (by decide) (Or.inl rfl) rfl rfl rfl
  simpa [taskT1] using h

/-- C3 counterexample: one chat turn whose first response is a Thinking plan
repeating the id `t1` executes that id twice — the executor trace (the
`taskStart`/`runTask` sequence) contains `t1` twice even though the first
execution produced a result before the second ran.  Plan steps perform no
per-id dedup. -/
theorem thinking_duplicate_id_runs_twice :
    ((chat ex0 genDupThinking 1 (Sum.inl "hi")).state.trace.map Task.id)
      = ["t1", "t1"] := rfl

/-- `runTask` always answers under the task's own id. -/
theorem runTask_id (ex : Executor) (t : Task) : (ex.runTask t).id = t.id := by
  unfold Executor.runTask
  split
  · rfl
  · split <;> rfl

/-- A successful `complete` records the result, erases the pending id and
keeps the task definitions. -/
theorem complete_some_spec (q : TaskQueue) (r : TaskResult) (q' : TaskQueue)
    (h : q.complete r = some q') :
    q' = ⟨q.tasks, TaskQueue.upsertResult q.results r, q.pending.erase r.id⟩ := by
  unfold TaskQueue.complete at h
  split at h
  · exact (Option.some.inj h).symm
  · exact absurd h (by simp)

theorem hasResult_upsert_same (rs : List TaskResult) (r : TaskResult) :
    (TaskQueue.upsertResult rs r).any (fun u => u.id = r.id) = true := by
  unfold TaskQueue.upsertResult
  by_cases h : rs.any (fun u => u.id = r.id) = true
  · rw [if_pos h]
    obtain ⟨x, hx, hxid⟩ := List.any_eq_true.mp h
    refine List.any_eq_true.mpr ⟨if x.id = r.id then r else x, List.mem_map.mpr ⟨x, hx, rfl⟩, ?_⟩
    simp only [decide_eq_true_eq] at hxid
    simp [hxid]
  · rw [if_neg h]
    exact List.any_eq_true.mpr ⟨r, List.mem_append.mpr (Or.inr (List.mem_singleton.mpr rfl)), by simp⟩

/-- The in-place update of `upsertResult` preserves ids pointwise, so key
membership over the updated list is unchanged. -/
theorem any_id_map_upsert (rs : List TaskResult) (r : TaskResult) (i : String) :
    ((rs.map (fun u => if u.id = r.id then r else u)).any (fun u => u.id = i))
      = rs.any (fun u => u.id = i) := by
  induction rs with
  | nil => rfl
  | cons x xs ih =>
    simp only [List.map_cons, List.any_cons, ih]
    congr 1
    by_cases hxr : x.id = r.id
    · rw [if_pos hxr, hxr]
    · rw [if_neg hxr]

theorem hasResult_upsert_mono (rs : List TaskResult) (r : TaskResult) (i : String)
    (h : rs.any (fun u => u.id = i) = true) :
    (TaskQueue.upsertResult rs r).any (fun u => u.id = i) = true := by
  unfold TaskQueue.upsertResult
  by_cases hc : rs.any (fun u => u.id = r.id) = true
  · rw [if_pos hc, any_id_map_upsert]
    exact h
  · rw [if_neg hc, List.any_append]
    simp [h]

theorem hasResult_upsert_ne (rs : List TaskResult) (r : TaskResult) (i : String)
    (hne : i ≠ r.id) :
    (TaskQueue.upsertResult rs r).any (fun u => u.id = i)
      = rs.any (fun u => u.id = i) := by
  unfold TaskQueue.upsertResult
  by_cases hc : rs.any (fun u => u.id = r.id) = true
  · rw [if_pos hc, any_id_map_upsert]
  · rw [if_neg hc, List.any_append]
    have : r.id ≠ i := Ne.symm hne
    simp [this]

theorem hasResult_complete_same (q : TaskQueue) (r : TaskResult) (q' : TaskQueue)
    (h : q.complete r = some q') : q'.hasResult r.id = true := by
  rw [complete_some_spec q r q' h]
  exact hasResult_upsert_same q.results r

theorem hasResult_complete_mono (q : TaskQueue) (r : TaskResult) (q' : TaskQueue)
    (h : q.complete r = some q') (i : String) (hi : q.hasResult i = true) :
    q'.hasResult i = true := by
  rw [complete_some_spec q r q' h]
  exact hasResult_upsert_mono q.results r i hi

theorem hasResult_complete_ne (q : TaskQueue) (r : TaskResult) (q' : TaskQueue)
    (h : q.complete r = some q') (i : String) (hne : i ≠ r.id) :
    q'.hasResult i = q.hasResult i := by
  rw [complete_some_spec q r q' h]
  exact hasResult_upsert_ne q.results r i hne

theorem wf_empty : TaskQueue.empty.Wf :=
  ⟨List.nodup_nil, fun i h => absurd h (by simp [TaskQueue.empty])⟩

theorem wf_add (q : TaskQueue) (t : Task) (h : q.Wf) : (q.add t).Wf := by
  obtain ⟨hnd, hfree⟩ := h
  unfold TaskQueue.add
  by_cases hr : q.hasResult t.id = true
  · rw [if_pos (by simpa [TaskQueue.hasResult] using hr)]
    exact ⟨hnd, fun i hi => by
      simpa [TaskQueue.hasResult] using hfree i hi⟩
  · rw [if_neg (by simpa [TaskQueue.hasResult] using hr)]
    by_cases hc : q.pending.contains t.id = true
    · rw [if_pos hc]
      exact ⟨hnd, fun i hi => by simpa [TaskQueue.hasResult] using hfree i hi⟩
    · rw [if_neg hc]
      refine ⟨?_, ?_⟩
      · refine List.Nodup.append hnd (List.nodup_singleton t.id) ?_
        intro a ha hb
        rw [List.mem_singleton] at hb
        subst hb
        exact hc (List.elem_eq_true_of_mem ha)
      · intro i hi
        rcases List.mem_append.mp hi with hi | hi
        · simpa [TaskQueue.hasResult] using hfree i hi
        · rw [List.mem_singleton] at hi
          subst hi
          simpa [TaskQueue.hasResult] using hr

theorem wf_addMany (q : TaskQueue) (ts : List Task) (h : q.Wf) :
    (q.addMany ts).Wf := by
  induction ts generalizing q with
  | nil => exact h
  | cons t ts ih =>
    simpa only [TaskQueue.addMany, List.foldl_cons] using ih (q.add t) (wf_add q t h)

theorem wf_complete (q : TaskQueue) (r : TaskResult) (q' : TaskQueue)
    (hwf : q.Wf) (h : q.complete r = some q') : q'.Wf := by
  obtain ⟨hnd, hfree⟩ := hwf
  rw [complete_some_spec q r q' h]
  refine ⟨hnd.erase r.id, ?_⟩
  intro i hi
  have hmem := (hnd.mem_erase_iff).mp hi
  have := hfree i hmem.2
  calc (TaskQueue.upsertResult q.results r).any (fun u => u.id = i)
      = q.results.any (fun u => u.id = i) :=
        hasResult_upsert_ne q.results r i hmem.1
    _ = false := by simpa [TaskQueue.hasResult] using this

/-- A returned ready task is pending (and its stored id is the pending id). -/
theorem nextReady_mem (q : TaskQueue) (t : Task) (h : q.nextReady = some t) :
    t.id ∈ q.pending := by
  unfold TaskQueue.nextReady at h
  cases hfind : q.pending.find? (fun tid => q.taskReady tid) with
  | none => rw [hfind] at h; exact absurd h (by simp)
  | some tid =>
    rw [hfind] at h
    dsimp only at h
    by_cases hz : tid = ""
    · rw [if_pos hz] at h; exact absurd h (by simp)
    · rw [if_neg hz] at h
      have hmem := List.mem_of_find?_eq_some hfind
      have hid := List.find?_some h
      simp only [decide_eq_true_eq] at hid
      rw [hid]
      exact hmem


/-- Invariant of the inner drain loop: well-formedness is preserved, results
are monotone, and the executed tasks (the trace delta) have pairwise
distinct ids, were all pending at entry, and all own a result afterwards. -/
theorem drain_spec (ex : Executor) :
    ∀ (fuel : Nat) (q : TaskQueue) (st : AgentState) (acc : List TaskResult),
      q.Wf →
      (drain ex fuel q st acc).1.Wf ∧
      (∀ i, q.hasResult i = true → (drain ex fuel q st acc).1.hasResult i = true) ∧
      ∃ Δ : List Task,
        (drain ex fuel q st acc).2.1.trace = st.trace ++ Δ ∧
        (Δ.map Task.id).Nodup ∧
        (∀ u ∈ Δ, u.id ∈ q.pending) ∧
        (∀ u ∈ Δ, (drain ex fuel q st acc).1.hasResult u.id = true) := by
  intro fuel
  induction fuel with
  | zero =>
    intro q st acc hwf
    exact ⟨hwf, fun i h => h, [], by simp [drain], by simp, by simp, by simp⟩
  | succ fuel ih =>
    intro q st acc hwf
    cases hnr : q.nextReady with
    | none =>
      have hd : drain ex (fuel + 1) q st acc = (q, st, acc) := by
        simp [drain, hnr]
      rw [hd]
      exact ⟨hwf, fun i h => h, [], by simp, by simp, by simp, by simp⟩
    | some t =>
      have hmem : t.id ∈ q.pending := nextReady_mem q t hnr
      have hcont : q.pending.contains (ex.runTask t).id = true := by
        rw [runTask_id]
        exact List.elem_eq_true_of_mem hmem
      have hc : q.complete (ex.runTask t) =
          some ⟨q.tasks, TaskQueue.upsertResult q.results (ex.runTask t),
            q.pending.erase (ex.runTask t).id⟩ := by
        unfold TaskQueue.complete
        rw [if_pos hcont]
      have hd : drain ex (fuel + 1) q st acc =
          drain ex fuel
            ⟨q.tasks, TaskQueue.upsertResult q.results (ex.runTask t),
              q.pending.erase (ex.runTask t).id⟩
            { st with trace := st.trace ++ [t] } (acc ++ [ex.runTask t]) := by
        simp [drain, hnr, runTaskStep, hc]
      have hwf' : TaskQueue.Wf
          ⟨q.tasks, TaskQueue.upsertResult q.results (ex.runTask t),
            q.pending.erase (ex.runTask t).id⟩ :=
        wf_complete q (ex.runTask t) _ hwf hc
      obtain ⟨ihwf, ihmono, Δ, ihtr, ihnd, ihpend, ihres⟩ :=
        ih ⟨q.tasks, TaskQueue.upsertResult q.results (ex.runTask t),
              q.pending.erase (ex.runTask t).id⟩
          { st with trace := st.trace ++ [t] } (acc ++ [ex.runTask t]) hwf'
      rw [hd]
      refine ⟨ihwf, ?_, t :: Δ, ?_, ?_, ?_, ?_⟩
      · intro i hi
        exact ihmono i (hasResult_complete_mono q (ex.runTask t) _ hc i hi)
      · rw [ihtr]
        simp
      · refine List.nodup_cons.mpr ⟨?_, ihnd⟩
        intro hin
        obtain ⟨u, hu, huid⟩ := List.mem_map.mp hin
        have hup := ihpend u hu
        simp only [runTask_id] at hup
        rw [huid] at hup
        exact absurd ((hwf.1.mem_erase_iff).mp hup).1 (by simp)
      · intro u hu
        rcases List.mem_cons.mp hu with h | h
        · subst h
          exact hmem
        · have hup := ihpend u h
          simp only [runTask_id] at hup
          exact List.mem_of_mem_erase hup
      · intro u hu
        rcases List.mem_cons.mp hu with h | h
        · subst h
          refine ihmono u.id ?_
          have := hasResult_complete_same q (ex.runTask u) _ hc
          simpa [runTask_id] using this
        · exact ihres u h


/-- Invariant of the batch pass loop: across all passes over one queue the
executed ids stay pairwise distinct (they were result-free on entry and each
owns a result in the final queue), results are monotone, and well-formedness
is preserved. -/
theorem regularPasses_spec (ex : Executor) (gen : Nat → String) :
    ∀ (remaining count : Nat) (q : TaskQueue) (st : AgentState),
      q.Wf →
      (regularPasses ex gen remaining count q st).2.1.Wf ∧
      (∀ i, q.hasResult i = true →
        (regularPasses ex gen remaining count q st).2.1.hasResult i = true) ∧
      ∃ Δ : List Task,
        (regularPasses ex gen remaining count q st).1.trace = st.trace ++ Δ ∧
        (Δ.map Task.id).Nodup ∧
        (∀ u ∈ Δ, q.hasResult u.id = false) ∧
        (∀ u ∈ Δ, (regularPasses ex gen remaining count q st).2.1.hasResult u.id
          = true) := by
  intro remaining
  induction remaining with
  | zero =>
    intro count q st hwf
    exact ⟨hwf, fun i h => h, [], by simp [regularPasses], by simp, by simp,
      by simp⟩
  | succ remaining ih =>
    intro count q st hwf
    obtain ⟨hwf1, hmono1, d1, htr1, hnd1, hpend1, hres1⟩ :=
      drain_spec ex (q.pending.length + 1) q st [] hwf
    have hfree1 : ∀ u ∈ d1, q.hasResult u.id = false :=
      fun u hu => hwf.2 u.id (hpend1 u hu)
    simp only [regularPasses]
    by_cases hfin : (drain ex (q.pending.length + 1) q st []).1.isFinished
    · simp only [hfin, if_true]
      by_cases hemp : (drain ex (q.pending.length + 1) q st []).2.2.isEmpty
      · simp only [hemp, if_true]
        exact ⟨hwf1, hmono1, d1, by simpa using htr1, hnd1, hfree1, hres1⟩
      · simp only [hemp, Bool.false_eq_true, if_false]
        split
        · exact ⟨hwf1, hmono1, d1, by simpa using htr1, hnd1, hfree1, hres1⟩
        · by_cases htsk :
            (parseDirectives (gen
              (drain ex (q.pending.length + 1) q st []).2.1.callIdx)).tasks.isEmpty
          · simp only [htsk, if_true]
            exact ⟨hwf1, hmono1, d1, by simpa using htr1, hnd1, hfree1, hres1⟩
          · simp only [htsk, Bool.false_eq_true, if_false]
            have hwf2 : TaskQueue.Wf
                ((drain ex (q.pending.length + 1) q st []).1.addMany
                  (parseDirectives (gen
                    (drain ex (q.pending.length + 1) q st []).2.1.callIdx)).tasks) :=
              wf_addMany _ _ hwf1
            obtain ⟨ihwf, ihmono, d2, ihtr, ihnd, ihfree, ihres⟩ :=
              ih _ _ _ hwf2
            refine ⟨ihwf, ?_, d1 ++ d2, ?_, ?_, ?_, ?_⟩
            · intro i hi
              refine ihmono i ?_
              rw [hasResult_addMany_eq]
              exact hmono1 i hi
            · rw [ihtr]
              simp only [htr1]
              simp
            · rw [List.map_append]
              refine List.Nodup.append hnd1 ihnd ?_
              intro a ha1 ha2
              obtain ⟨u, hu, huid⟩ := List.mem_map.mp ha1
              obtain ⟨w, hw, hwid⟩ := List.mem_map.mp ha2
              have h1 : (drain ex (q.pending.length + 1) q st []).1.hasResult a
                  = true := huid ▸ hres1 u hu
              have h2 := ihfree w hw
              rw [hasResult_addMany_eq, hwid] at h2
              rw [h2] at h1
              exact absurd h1 (by simp)
            · intro u hu
              rcases List.mem_append.mp hu with h | h
              · exact hfree1 u h
              · have h2 := ihfree u h
                rw [hasResult_addMany_eq] at h2
                cases hq : q.hasResult u.id with
                | false => rfl
                | true =>
                  rw [hmono1 u.id hq] at h2
                  exact absurd h2 (by simp)
            · intro u hu
              rcases List.mem_append.mp hu with h | h
              · refine ihmono u.id ?_
                rw [hasResult_addMany_eq]
                exact hres1 u h
              · exact ihres u h
    · simp only [hfin, Bool.false_eq_true, if_false]
      by_cases hemp : (drain ex (q.pending.length + 1) q st []).2.2.isEmpty
      · simp only [hemp, if_true]
        exact ⟨hwf1, hmono1, d1, by simpa using htr1, hnd1, hfree1, hres1⟩
      · simp only [hemp, Bool.false_eq_true, if_false]
        obtain ⟨ihwf, ihmono, d2, ihtr, ihnd, ihfree, ihres⟩ :=
          ih _ _ _ hwf1
        refine ⟨ihwf, ?_, d1 ++ d2, ?_, ?_, ?_, ?_⟩
        · intro i hi
          exact ihmono i (hmono1 i hi)
        · rw [ihtr]
          simp only [htr1]
          simp
        · rw [List.map_append]
          refine List.Nodup.append hnd1 ihnd ?_
          intro a ha1 ha2
          obtain ⟨u, hu, huid⟩ := List.mem_map.mp ha1
          obtain ⟨w, hw, hwid⟩ := List.mem_map.mp ha2
          have h1 : (drain ex (q.pending.length + 1) q st []).1.hasResult a
              = true := huid ▸ hres1 u hu
          have h2 := ihfree w hw
          rw [hwid] at h2
          rw [h2] at h1
          exact absurd h1 (by simp)
        · intro u hu
          rcases List.mem_append.mp hu with h | h
          · exact hfree1 u h
          · have h2 := ihfree u h
            cases hq : q.hasResult u.id with
            | false => rfl
            | true =>
              rw [hmono1 u.id hq] at h2
              exact absurd h2 (by simp)
        · intro u hu
          rcases List.mem_append.mp hu with h | h
          · exact ihmono u.id (hres1 u h)
          · exact ihres u h


/-- C3 (amended): within one batch-processing call — the pass loop that
`processRegularTasks` runs over the single `TaskQueue` it builds from the
parsed tasks — no id is ever executed twice: the ids of the tasks handed to
the executor during those passes are pairwise distinct, however often the
generator re-issues a directive.  (Plan/Thinking steps and later
`processRegularTasks` calls use no queue and no dedup, so at-most-once does
not extend across them; see the counterexample.) -/
theorem batch_passes_execute_each_id_at_most_once (ex : Executor)
    (gen : Nat → String) (ts : List Task) (st : AgentState) :
    ((((regularPasses ex gen 5 0 (TaskQueue.empty.addMany ts) st).1.trace.drop
        st.trace.length)).map Task.id).Nodup := by
  obtain ⟨_, _, d, htr, hnd, _, _⟩ :=
    regularPasses_spec ex gen 5 0 (TaskQueue.empty.addMany ts) st
      (wf_addMany _ _ wf_empty)
  rw [htr, List.drop_left]
  exact hnd

end Morph
